import Mathlib

/-!
Verification development for `mmedit/datasets/pipelines/matting_aug.py`.

The module under study implements three sample transforms used in an
image-matting training pipeline:

* `MergeFgAndBg.__call__` : composites foreground over background with alpha;
* `GenerateTrimap.__init__` / `__call__` : random erode/dilate of an alpha
  matte producing a trimap valued in 0 / 128 / 255;
* `CompositeFg.__call__` : with probability 1/2, composites the current
  (fg, alpha) pair with a randomly loaded second pair.

Arrays are embedded as shape-carrying pixel functions.  `numpy.float32`
arithmetic is embedded as exact rational arithmetic (the claims settled here
depend only on exactly representable values such as 0, 1, 128/255).  Machine
bytes are `Nat` with an explicit `% 256` where a cast wraps.  Randomness and
the filesystem are passed in as explicit parameters (the drawn coin, the
drawn indices, and a load oracle), so every random branch of the Python code
corresponds to a parameter valuation here.

External library operations (`cv2.getStructuringElement`,
`cv2.erode` / `cv2.dilate` with the default +inf / -inf constant border,
`mmcv.imresize` with nearest interpolation) are embedded following their
documented semantics for `uint8` data.
-/

/-! ### Single-channel byte images (`GenerateTrimap` works on these) -/

/-- A single-channel image with natural-number pixel values.  `px` is a total
function; only the values at indices `i < h`, `j < w` are meaningful. -/
@[ext]
structure NImg where
  h : Nat
  w : Nat
  px : Nat → Nat → Nat

/-- Read a pixel at a (possibly out-of-range) integer coordinate, producing
the border constant `b` outside the image.  This models OpenCV's constant
border: `cv2.erode` uses the type maximum (255 for `uint8`), `cv2.dilate`
the type minimum (0). -/
def NImg.pxB (a : NImg) (b : Nat) (ii jj : Int) : Nat :=
  if 0 ≤ ii ∧ ii < (a.h : Int) ∧ 0 ≤ jj ∧ jj < (a.w : Int) then
    a.px ii.toNat jj.toNat
  else b

/-- One application of morphological erosion by the structuring element
given as a list of offsets from the anchor: each pixel becomes the minimum
of its neighborhood, out-of-range neighbors reading as 255 (the `uint8`
erosion border constant). -/
def erodeStep (K : List (Int × Int)) (a : NImg) : NImg :=
  { h := a.h, w := a.w,
    px := fun i j =>
      (K.map (fun o => a.pxB 255 ((i : Int) + o.1) ((j : Int) + o.2))).foldl
        Nat.min 255 }

/-- One application of morphological dilation: each pixel becomes the
maximum of its neighborhood, out-of-range neighbors reading as 0. -/
def dilateStep (K : List (Int × Int)) (a : NImg) : NImg :=
  { h := a.h, w := a.w,
    px := fun i j =>
      (K.map (fun o => a.pxB 0 ((i : Int) + o.1) ((j : Int) + o.2))).foldl
        Nat.max 0 }

/-- `cv2.erode(alpha, kernel, iterations=n)`: `n`-fold erosion. -/
def erodeN (K : List (Int × Int)) (n : Nat) (a : NImg) : NImg :=
  (erodeStep K)^[n] a

/-- `cv2.dilate(alpha, kernel, iterations=n)`: `n`-fold dilation. -/
def dilateN (K : List (Int × Int)) (n : Nat) (a : NImg) : NImg :=
  (dilateStep K)^[n] a

/-! ### Elliptical structuring elements -/

/-- A structuring element: its nominal size (the `(size, size)` argument of
`cv2.getStructuringElement`) and the list of offsets from the anchor that
belong to the element. -/
structure Kern where
  size : Nat
  offsets : List (Int × Int)

/-- The half-width `dx = round(c * sqrt(r^2 - dy^2) / r)` of the scanline
of the rasterized ellipse at vertical distance `dy` from the center
(`dx = 0` when `r = 0`, matching OpenCV's `inv_r2 = 0` convention).  The
rounding is realized with `Nat.sqrt`. -/
def ellipseDx (r c dyA : Nat) : Nat :=
  if r = 0 then 0
  else (2 * Nat.sqrt (c * c * (r * r - dyA * dyA)) + r) / (2 * r)

/-- Row `i` of the `MORPH_ELLIPSE` element of size `n` with semi-axes
`r = c = n / 2`: the list of column indices filled in that row, following
OpenCV's scanline rasterization: columns `max(c - dx, 0)` to
`min(c + dx + 1, n) - 1`. -/
def ellipseRow (n r c i : Nat) : List Nat :=
  if ((i : Int) - (r : Int)).natAbs ≤ r then
    List.range' (c - ellipseDx r c ((i : Int) - (r : Int)).natAbs)
      (min (c + ellipseDx r c ((i : Int) - (r : Int)).natAbs + 1) n -
        (c - ellipseDx r c ((i : Int) - (r : Int)).natAbs))
  else []

/-- `cv2.getStructuringElement(cv2.MORPH_ELLIPSE, (n, n))` with the default
central anchor `(n / 2, n / 2)`, as a set of offsets from the anchor. -/
def ellipseKernel (n : Nat) : Kern :=
  let r := n / 2
  let c := n / 2
  { size := n,
    offsets :=
      (List.range n).flatMap (fun (i : Nat) =>
        (ellipseRow n r c i).map (fun (j : Nat) =>
          ((i : Int) - r, (j : Int) - c))) }

/-! ### GenerateTrimap -/

/-- A `kernel_size` / `iterations` argument: either a single int or a
`[lo, hi)` pair, mirroring the `isinstance(x, int)` test in
`GenerateTrimap.__init__`. -/
inductive IntOrPair where
  | int (k : Nat)
  | pair (lo hi : Nat)

/-- The `(min, max)` bounds `GenerateTrimap.__init__` derives from an
int-or-pair argument: a single int `k` becomes `(k, k + 1)`. -/
def boundsOf : IntOrPair → Nat × Nat
  | .int k => (k, k + 1)
  | .pair lo hi => (lo, hi)

namespace GenerateTrimap

/-- The kernel list precomputed by `GenerateTrimap.__init__`:
`[cv2.getStructuringElement(cv2.MORPH_ELLIPSE, (size, size))
  for size in range(min_kernel, max_kernel)]`. -/
def initKernels (kernel_size : IntOrPair) : List Kern :=
  let b := boundsOf kernel_size
  (List.range' b.1 (b.2 - b.1)).map ellipseKernel

/-- The `(min_iteration, max_iteration)` pair stored by
`GenerateTrimap.__init__`. -/
def initIterations (iterations : IntOrPair) : Nat × Nat :=
  boundsOf iterations

/-- The state of a constructed `GenerateTrimap` transform. -/
structure Cfg where
  kernels : List Kern
  min_iteration : Nat
  max_iteration : Nat
  symmetric : Bool

/-- The random draws consumed by one `GenerateTrimap.__call__`:
`erode_ksize_idx`, `erode_iter`, and (when not symmetric)
`dilate_ksize_idx`, `dilate_iter`. -/
structure Draws where
  erodeIdx : Nat
  erodeIter : Nat
  dilateIdx : Nat
  dilateIter : Nat

/-- The kernel offsets used for erosion on this call. -/
def erodeKernel (cfg : Cfg) (d : Draws) : List (Int × Int) :=
  (cfg.kernels.getD d.erodeIdx ⟨0, []⟩).offsets

/-- The kernel offsets used for dilation on this call (`symmetric` reuses
the erosion index). -/
def dilateKernel (cfg : Cfg) (d : Draws) : List (Int × Int) :=
  (cfg.kernels.getD (if cfg.symmetric then d.erodeIdx else d.dilateIdx)
    ⟨0, []⟩).offsets

/-- The dilation iteration count (`symmetric` reuses the erosion count). -/
def dilateIterEff (cfg : Cfg) (d : Draws) : Nat :=
  if cfg.symmetric then d.erodeIter else d.dilateIter

/-- The eroded alpha computed by `GenerateTrimap.__call__`. -/
def eroded (cfg : Cfg) (d : Draws) (alpha : NImg) : NImg :=
  erodeN (erodeKernel cfg d) d.erodeIter alpha

/-- The dilated alpha computed by `GenerateTrimap.__call__`. -/
def dilated (cfg : Cfg) (d : Draws) (alpha : NImg) : NImg :=
  dilateN (dilateKernel cfg d) (dilateIterEff cfg d) alpha

/-- The trimap assembly of `GenerateTrimap.__call__`:
`trimap.fill(128); trimap[eroded >= 255] = 255; trimap[dilated <= 0] = 0`.
The `dilated <= 0` write happens second, so it wins on any overlap. -/
def buildTrimap (alpha er di : NImg) : NImg :=
  { h := alpha.h, w := alpha.w,
    px := fun i j =>
      if di.px i j ≤ 0 then 0
      else if 255 ≤ er.px i j then 255
      else 128 }

/-- `GenerateTrimap.__call__` on an alpha image, given the random draws:
the trimap written to `results['trimap']` (its `astype(np.float32)` is the
identity on the exactly representable values 0, 128, 255). -/
def call (cfg : Cfg) (d : Draws) (alpha : NImg) : NImg :=
  buildTrimap alpha (eroded cfg d alpha) (dilated cfg d alpha)

end GenerateTrimap

/-! ### Rank-polymorphic numpy arrays with broadcasting (`MergeFgAndBg`) -/

/-- A numpy ndarray of rationals: a shape and a total valuation on
multi-indices.  Only values at indices of length `shape.length` that are
pointwise in range are meaningful. -/
structure NDArr where
  shape : List Nat
  val : List Nat → ℚ

/-- Broadcast two dimension sizes (numpy rule): equal sizes pass through,
and a size of 1 stretches. -/
def bcastDim (a b : Nat) : Option Nat :=
  if a = b then some a
  else if a = 1 then some b
  else if b = 1 then some a
  else none

/-- Broadcast two reversed shapes (trailing dimensions first, the shorter
shape padded with stretchable leading dimensions). -/
def bcastShapeRev : List Nat → List Nat → Option (List Nat)
  | [], t => some t
  | s, [] => some s
  | a :: s, b :: t =>
    match bcastDim a b, bcastShapeRev s t with
    | some d, some r => some (d :: r)
    | _, _ => none

/-- The numpy broadcast of two shapes, or `none` when they are
incompatible. -/
def broadcastShape (s t : List Nat) : Option (List Nat) :=
  (bcastShapeRev s.reverse t.reverse).map List.reverse

/-- Project a broadcast multi-index onto an operand: stretched (size-1)
dimensions read index 0. -/
def bidx : List Nat → List Nat → List Nat
  | d :: s, i :: ix => (if d = 1 then 0 else i) :: bidx s ix
  | _, _ => []

/-- Read an operand at a multi-index of the broadcast result: drop the
index entries for the leading padded dimensions, then project. -/
def NDArr.bget (A : NDArr) (ix : List Nat) : ℚ :=
  A.val (bidx A.shape (ix.drop (ix.length - A.shape.length)))

/-- An elementwise binary ufunc with numpy broadcasting; `none` on
incompatible shapes. -/
def ndZip (f : ℚ → ℚ → ℚ) (A B : NDArr) : Option NDArr :=
  (broadcastShape A.shape B.shape).map (fun s =>
    { shape := s, val := fun ix => f (A.bget ix) (B.bget ix) })

/-- An elementwise unary operation (scalar broadcast), shape preserving. -/
def NDArr.smap (f : ℚ → ℚ) (A : NDArr) : NDArr :=
  { shape := A.shape, val := fun ix => f (A.val ix) }

/-- `A[..., None]`: append a trailing dimension of size 1. -/
def NDArr.expandLast (A : NDArr) : NDArr :=
  { shape := A.shape ++ [1], val := fun ix => A.val ix.dropLast }

/-- Look a key up underneath the `Option` layer of a transform result. -/
def getKey2 {α : Type} (o : Option (String → Option α)) (k : String) :
    Option α :=
  o.bind (fun r => r k)

namespace MergeFgAndBg

/-- `MergeFgAndBg.__call__`: reads `alpha`, `fg`, `bg`, computes
`alpha = results['alpha'][..., None].astype(np.float32) / 255.` and
`merged = fg * alpha + (1. - alpha) * bg`, and stores `merged`.  A missing
key or a failed broadcast is `none` (the Python call raises there). -/
def call (r : String → Option NDArr) : Option (String → Option NDArr) :=
  match r "alpha", r "fg", r "bg" with
  | some alpha0, some fg, some bg =>
    let alpha := alpha0.expandLast.smap (fun v => v / 255)
    match ndZip (· * ·) fg alpha with
    | none => none
    | some t1 =>
      match ndZip (· * ·) (alpha.smap (fun v => 1 - v)) bg with
      | none => none
      | some t2 =>
        match ndZip (· + ·) t1 t2 with
        | none => none
        | some merged =>
          some (fun k => if k = "merged" then some merged else r k)
  | _, _, _ => none

end MergeFgAndBg

/-! ### CompositeFg -/

/-- A single-channel rational-valued image (alpha mattes). -/
@[ext]
structure QImg where
  h : Nat
  w : Nat
  px : Nat → Nat → ℚ

/-- A 3-channel rational-valued image (color foregrounds); the channel
index is the third argument. -/
@[ext]
structure CImg where
  h : Nat
  w : Nat
  px : Nat → Nat → Nat → ℚ

/-- Apply a function to every pixel value. -/
def QImg.map (f : ℚ → ℚ) (a : QImg) : QImg :=
  { h := a.h, w := a.w, px := fun i j => f (a.px i j) }

/-- `mmcv.imresize(img, (w, h), interpolation='nearest')` on a
single-channel image: nearest-neighbor source lookup by index scaling. -/
def resizeQ (a : QImg) (h w : Nat) : QImg :=
  { h := h, w := w, px := fun i j => a.px (i * a.h / h) (j * a.w / w) }

/-- `mmcv.imresize(img, (w, h), interpolation='nearest')` on a
3-channel image. -/
def resizeC (a : CImg) (h w : Nat) : CImg :=
  { h := h, w := w, px := fun i j c => a.px (i * a.h / h) (j * a.w / w) c }

/-- `alpha_tmp = 1 - (1 - alpha) * (1 - alpha2)`, the screen composition
of two alpha mattes (elementwise, shape taken from the first operand). -/
def screenAlpha (a a2 : QImg) : QImg :=
  { h := a.h, w := a.w,
    px := fun i j => 1 - (1 - a.px i j) * (1 - a2.px i j) }

/-- `np.any(a < 1)` over the in-range pixels of `a`. -/
def QImg.anyLt1 (a : QImg) : Bool :=
  (List.range a.h).any (fun i =>
    (List.range a.w).any (fun j => decide (a.px i j < 1)))

/-- `fg.astype(np.float32) * alpha[..., None]
     + fg2.astype(np.float32) * (1 - alpha[..., None])`:
the foreground blend, using the original (not the combined) alpha. -/
def blendFg (fg fg2 : CImg) (alpha : QImg) : CImg :=
  { h := fg.h, w := fg.w,
    px := fun i j c =>
      fg.px i j c * alpha.px i j + fg2.px i j c * (1 - alpha.px i j) }

/-- `np.float32 → np.uint8` conversion of one value: truncation toward
zero (for the nonnegative values arising here, the floor) wrapped into the
byte range. -/
def toByteQ (q : ℚ) : ℚ :=
  ((⌊q⌋.toNat % 256 : Nat) : ℚ)

/-- `(alpha * 255).astype(np.uint8)` on a whole matte. -/
def QImg.toBytes (a : QImg) : QImg :=
  { h := a.h, w := a.w, px := fun i j => toByteQ (a.px i j * 255) }

/-- A value stored in a sample record handled by `CompositeFg`: a color
image (`fg`), an alpha matte (`alpha`), a shape tuple (`img_shape`), or an
unmodelled payload under some other key. -/
inductive CVal where
  | imgC (f : CImg)
  | imgA (a : QImg)
  | shape (s : Nat × Nat)
  | other (n : Nat)

namespace CompositeFg

/-- The state of a constructed `CompositeFg` transform that the call
path consumes: the stem list scanned from `fg_dir` at construction. -/
structure Cfg where
  stem_list : List String

/-- The branch body of `CompositeFg.__call__` after alpha normalization,
returning the `(fg, alpha)` pair that is written back.  `fs` is the load
oracle: for a stem it yields the `mmcv.imread` foreground and grayscale
alpha (both byte-scaled, pre-resize).  `coin` is `np.random.rand()` and
`idx` is `np.random.randint(len(self.stem_list))`.  The Python line
`fg.astype(np.uint8)` discards its result (`astype` returns a copy that is
never bound), so no cast appears between the blend and the write-back. -/
def compose (cfg : Cfg) (fs : String → CImg × QImg) (coin : ℚ) (idx : Nat)
    (fg : CImg) (alpha : QImg) (h w : Nat) : CImg × QImg :=
  if coin < 1 / 2 then
    let stem := cfg.stem_list.getD idx ""
    let fg2 := resizeC (fs stem).1 h w
    let alpha2 := resizeQ ((fs stem).2.map (fun v => v / 255)) h w
    let alphaTmp := screenAlpha alpha alpha2
    if alphaTmp.anyLt1 then (blendFg fg fg2 alpha, alphaTmp)
    else (fg, alpha)
  else (fg, alpha)

/-- `CompositeFg.__call__`: normalizes `alpha` to `[0, 1]`, runs the
random composition branch, then unconditionally writes back `fg`,
`alpha = (alpha * 255).astype(np.uint8)` and `img_shape = alpha.shape`.
A missing or ill-typed required key is `none` (the Python call raises). -/
def call (cfg : Cfg) (fs : String → CImg × QImg) (coin : ℚ) (idx : Nat)
    (r : String → Option CVal) : Option (String → Option CVal) :=
  match r "fg", r "alpha", r "img_shape" with
  | some (.imgC fg), some (.imgA alpha0), some (.shape (h, w)) =>
    let p := compose cfg fs coin idx fg (alpha0.map (fun v => v / 255)) h w
    some (fun k =>
      if k = "fg" then some (.imgC p.1)
      else if k = "alpha" then some (.imgA p.2.toBytes)
      else if k = "img_shape" then some (.shape (p.2.h, p.2.w))
      else r k)
  | _, _, _ => none

end CompositeFg

/-- The `fg` pixel at `(i, j)`, channel `c`, of a transform result. -/
def fgPx (o : Option (String → Option CVal)) (i j c : Nat) : Option ℚ :=
  (getKey2 o "fg").bind (fun v =>
    match v with
    | .imgC f => some (f.px i j c)
    | _ => none)

/-- The `alpha` pixel at `(i, j)` of a transform result. -/
def alphaPx (o : Option (String → Option CVal)) (i j : Nat) : Option ℚ :=
  (getKey2 o "alpha").bind (fun v =>
    match v with
    | .imgA a => some (a.px i j)
    | _ => none)

/-! ### Concrete fixtures used by witnesses and counterexamples -/

/-- A well-shaped 1×1 record for `MergeFgAndBg`. -/
def wMergeRec : String → Option NDArr := fun k =>
  if k = "alpha" then some ⟨[1, 1], fun _ => 51⟩
  else if k = "fg" then some ⟨[1, 1, 3], fun _ => 10⟩
  else if k = "bg" then some ⟨[1, 1, 3], fun _ => 20⟩
  else none

/-- A record whose `alpha` has shape 2×3×1 (`fg`, `bg` are 2×3×3). -/
def wMergeRecHW1 : String → Option NDArr := fun k =>
  if k = "alpha" then some ⟨[2, 3, 1], fun _ => 0⟩
  else if k = "fg" then some ⟨[2, 3, 3], fun _ => 0⟩
  else if k = "bg" then some ⟨[2, 3, 3], fun _ => 0⟩
  else none

/-- A `GenerateTrimap` built with `kernel_size=3`, `iterations=1`,
`symmetric=True`. -/
def wTriCfg : GenerateTrimap.Cfg :=
  { kernels := GenerateTrimap.initKernels (.int 3),
    min_iteration := 1, max_iteration := 2, symmetric := true }

/-- Fixed random draws for `GenerateTrimap.__call__`. -/
def wTriDraws : GenerateTrimap.Draws :=
  { erodeIdx := 0, erodeIter := 1, dilateIdx := 0, dilateIter := 1 }

/-- An all-opaque 3×3 byte alpha matte. -/
def wTriAlpha : NImg := ⟨3, 3, fun _ _ => 255⟩

/-- A `CompositeFg` whose directory scan found one stem. -/
def wCompCfg : CompositeFg.Cfg := ⟨["a"]⟩

/-- A load oracle: every stem yields a constant-200 foreground and a
fully transparent alpha. -/
def wCompFs : String → CImg × QImg :=
  fun _ => (⟨1, 1, fun _ _ _ => 200⟩, ⟨1, 1, fun _ _ => 0⟩)

/-- A constant-10 1×1 foreground. -/
def wCompFg : CImg := ⟨1, 1, fun _ _ _ => 10⟩

/-- A fully opaque 1×1 byte alpha. -/
def wAlpha255 : QImg := ⟨1, 1, fun _ _ => 255⟩

/-- A half-opaque 1×1 byte alpha (value 128). -/
def wAlpha128 : QImg := ⟨1, 1, fun _ _ => 128⟩

/-- A well-formed record with fully opaque alpha. -/
def wRec255 : String → Option CVal := fun k =>
  if k = "fg" then some (.imgC wCompFg)
  else if k = "alpha" then some (.imgA wAlpha255)
  else if k = "img_shape" then some (.shape (1, 1))
  else if k = "extra" then some (.other 7)
  else none

/-- A well-formed record with half-opaque alpha. -/
def wRec128 : String → Option CVal := fun k =>
  if k = "fg" then some (.imgC wCompFg)
  else if k = "alpha" then some (.imgA wAlpha128)
  else if k = "img_shape" then some (.shape (1, 1))
  else none

/-- A byte-valued record whose stored `img_shape` (5, 7) disagrees with the
1×1 shape of its `alpha` array. -/
def wRecBadShape : String → Option CVal := fun k =>
  if k = "fg" then some (.imgC wCompFg)
  else if k = "alpha" then some (.imgA ⟨1, 1, fun _ _ => 0⟩)
  else if k = "img_shape" then some (.shape (5, 7))
  else none

/-- A constant-1/2 alpha matte in normalized scale. -/
def wAlphaHalf : QImg := ⟨1, 1, fun _ _ => 1 / 2⟩

/-! ### Lemmas about erosion and dilation -/

lemma foldl_min_le_init : ∀ (l : List Nat) (s : Nat), l.foldl Nat.min s ≤ s := by
  intro l
  induction l with
  | nil => intro s; exact le_refl s
  | cons x xs ih =>
    intro s
    exact le_trans (ih (Nat.min s x)) (Nat.min_le_left s x)

lemma foldl_min_le_of_mem {v : Nat} :
    ∀ {l : List Nat} (s : Nat), v ∈ l → l.foldl Nat.min s ≤ v := by
  intro l
  induction l with
  | nil => intro s h; cases h
  | cons x xs ih =>
    intro s h
    rcases List.mem_cons.1 h with rfl | h
    · exact le_trans (foldl_min_le_init xs _) (Nat.min_le_right s v)
    · exact ih _ h

lemma init_le_foldl_max : ∀ (l : List Nat) (s : Nat), s ≤ l.foldl Nat.max s := by
  intro l
  induction l with
  | nil => intro s; exact le_refl s
  | cons x xs ih =>
    intro s
    exact le_trans (Nat.le_max_left s x) (ih (Nat.max s x))

lemma le_foldl_max_of_mem {v : Nat} :
    ∀ {l : List Nat} (s : Nat), v ∈ l → v ≤ l.foldl Nat.max s := by
  intro l
  induction l with
  | nil => intro s h; cases h
  | cons x xs ih =>
    intro s h
    rcases List.mem_cons.1 h with rfl | h
    · exact le_trans (Nat.le_max_right s v) (init_le_foldl_max xs _)
    · exact ih _ h

lemma NImg.pxB_self (a : NImg) (b : Nat) {i j : Nat} (hi : i < a.h)
    (hj : j < a.w) : a.pxB b (i : Int) (j : Int) = a.px i j := by
  have hc : (0 : Int) ≤ (i : Int) ∧ (i : Int) < (a.h : Int) ∧
      (0 : Int) ≤ (j : Int) ∧ (j : Int) < (a.w : Int) := by omega
  rw [NImg.pxB, if_pos hc]
  simp

lemma erodeStep_h (K : List (Int × Int)) (a : NImg) :
    (erodeStep K a).h = a.h := rfl

lemma erodeStep_w (K : List (Int × Int)) (a : NImg) :
    (erodeStep K a).w = a.w := rfl

lemma erodeStep_px_le {K : List (Int × Int)}
    (hK : ((0 : Int), (0 : Int)) ∈ K) (a : NImg) {i j : Nat}
    (hi : i < a.h) (hj : j < a.w) :
    (erodeStep K a).px i j ≤ a.px i j := by
  have hmem : a.px i j ∈
      K.map (fun o => a.pxB 255 ((i : Int) + o.1) ((j : Int) + o.2)) := by
    refine List.mem_map.2 ⟨((0 : Int), (0 : Int)), hK, ?_⟩
    simpa using a.pxB_self 255 hi hj
  exact foldl_min_le_of_mem 255 hmem

lemma dilateStep_px_ge {K : List (Int × Int)}
    (hK : ((0 : Int), (0 : Int)) ∈ K) (a : NImg) {i j : Nat}
    (hi : i < a.h) (hj : j < a.w) :
    a.px i j ≤ (dilateStep K a).px i j := by
  have hmem : a.px i j ∈
      K.map (fun o => a.pxB 0 ((i : Int) + o.1) ((j : Int) + o.2)) := by
    refine List.mem_map.2 ⟨((0 : Int), (0 : Int)), hK, ?_⟩
    simpa using a.pxB_self 0 hi hj
  exact le_foldl_max_of_mem 0 hmem

lemma erodeN_h (K : List (Int × Int)) (n : Nat) (a : NImg) :
    (erodeN K n a).h = a.h := by
  induction n with
  | zero => rfl
  | succ n ih =>
    rw [erodeN, Function.iterate_succ_apply']
    exact ih

lemma erodeN_w (K : List (Int × Int)) (n : Nat) (a : NImg) :
    (erodeN K n a).w = a.w := by
  induction n with
  | zero => rfl
  | succ n ih =>
    rw [erodeN, Function.iterate_succ_apply']
    exact ih

lemma dilateN_h (K : List (Int × Int)) (n : Nat) (a : NImg) :
    (dilateN K n a).h = a.h := by
  induction n with
  | zero => rfl
  | succ n ih =>
    rw [dilateN, Function.iterate_succ_apply']
    exact ih

lemma dilateN_w (K : List (Int × Int)) (n : Nat) (a : NImg) :
    (dilateN K n a).w = a.w := by
  induction n with
  | zero => rfl
  | succ n ih =>
    rw [dilateN, Function.iterate_succ_apply']
    exact ih

lemma erodeN_px_le {K : List (Int × Int)}
    (hK : ((0 : Int), (0 : Int)) ∈ K) (n : Nat) (a : NImg) {i j : Nat}
    (hi : i < a.h) (hj : j < a.w) :
    (erodeN K n a).px i j ≤ a.px i j := by
  induction n with
  | zero => exact le_refl _
  | succ n ih =>
    rw [erodeN, Function.iterate_succ_apply']
    have h1 : i < ((erodeStep K)^[n] a).h := by
      rw [show ((erodeStep K)^[n] a).h = a.h from erodeN_h K n a]
      exact hi
    have h2 : j < ((erodeStep K)^[n] a).w := by
      rw [show ((erodeStep K)^[n] a).w = a.w from erodeN_w K n a]
      exact hj
    exact le_trans (erodeStep_px_le hK _ h1 h2) ih

lemma dilateN_px_ge {K : List (Int × Int)}
    (hK : ((0 : Int), (0 : Int)) ∈ K) (n : Nat) (a : NImg) {i j : Nat}
    (hi : i < a.h) (hj : j < a.w) :
    a.px i j ≤ (dilateN K n a).px i j := by
  induction n with
  | zero => exact le_refl _
  | succ n ih =>
    rw [dilateN, Function.iterate_succ_apply']
    have h1 : i < ((dilateStep K)^[n] a).h := by
      rw [show ((dilateStep K)^[n] a).h = a.h from dilateN_h K n a]
      exact hi
    have h2 : j < ((dilateStep K)^[n] a).w := by
      rw [show ((dilateStep K)^[n] a).w = a.w from dilateN_w K n a]
      exact hj
    exact le_trans ih (dilateStep_px_ge hK _ h1 h2)

/-! ### The anchor belongs to every nonempty elliptical element -/

lemma ellipseDx_center (r : Nat) : ellipseDx r r 0 = r := by
  rcases Nat.eq_zero_or_pos r with h0 | hpos
  · simp [ellipseDx, h0]
  · rw [ellipseDx, if_neg (Nat.pos_iff_ne_zero.1 hpos)]
    have h1 : r * r - 0 * 0 = r * r := by omega
    rw [h1, Nat.sqrt_eq (r * r),
      show 2 * (r * r) + r = r * (2 * r + 1) from by ring,
      show 2 * r = r * 2 from by ring,
      Nat.mul_div_mul_left _ _ hpos]
    omega

lemma center_mem_ellipseRow {n : Nat} (hn : 1 ≤ n) :
    n / 2 ∈ ellipseRow n (n / 2) (n / 2) (n / 2) := by
  have hr : n / 2 < n := Nat.div_lt_self (by omega) (by omega)
  rw [ellipseRow]
  have hd : ((↑(n / 2) : Int) - ↑(n / 2)).natAbs = 0 := by simp
  rw [hd, if_pos (Nat.zero_le _), ellipseDx_center, Nat.sub_self]
  refine List.mem_range'.2 ⟨n / 2, ?_, by omega⟩
  omega

lemma anchor_mem_ellipse {n : Nat} (hn : 1 ≤ n) :
    ((0 : Int), (0 : Int)) ∈ (ellipseKernel n).offsets := by
  have hr : n / 2 < n := Nat.div_lt_self (by omega) (by omega)
  have h0 : (((0 : Int), (0 : Int)) : Int × Int) =
      ((↑(n / 2) : Int) - ↑(n / 2), (↑(n / 2) : Int) - ↑(n / 2)) := by simp
  rw [h0]
  exact List.mem_flatMap.2 ⟨n / 2, List.mem_range.2 hr,
    List.mem_map.2 ⟨n / 2, center_mem_ellipseRow hn, rfl⟩⟩

/-! ### Lemmas about broadcasting -/

lemma bcastDim_self (d : Nat) : bcastDim d d = some d := by
  simp [bcastDim]

lemma bcastDim_one_right (d : Nat) : bcastDim d 1 = some d := by
  rcases eq_or_ne d 1 with h | h <;> simp [bcastDim, h]

lemma bcastDim_one_left (d : Nat) : bcastDim 1 d = some d := by
  rcases eq_or_ne d 1 with h | h
  · subst h
    simp [bcastDim]
  · simp [bcastDim, Ne.symm h]

lemma broadcastShape_HW3_HW1 (H W : Nat) :
    broadcastShape [H, W, 3] [H, W, 1] = some [H, W, 3] := by
  simp [broadcastShape, bcastShapeRev, bcastDim_one_right 3, bcastDim_self]

lemma broadcastShape_HW1_HW3 (H W : Nat) :
    broadcastShape [H, W, 1] [H, W, 3] = some [H, W, 3] := by
  simp [broadcastShape, bcastShapeRev, bcastDim_one_left 3, bcastDim_self]

lemma broadcastShape_HW3_HW3 (H W : Nat) :
    broadcastShape [H, W, 3] [H, W, 3] = some [H, W, 3] := by
  simp [broadcastShape, bcastShapeRev, bcastDim_self]

lemma if_one_idx {d i : Nat} (hi : i < d) : (if d = 1 then 0 else i) = i := by
  rcases eq_or_ne d 1 with h | h
  · subst h
    have h0 : i = 0 := by omega
    simp [h0]
  · simp [h]

lemma bidx_HW3 {H W : Nat} (i j c : Nat) (hi : i < H) (hj : j < W) :
    bidx [H, W, 3] [i, j, c] = [i, j, c] := by
  simp [bidx, if_one_idx hi, if_one_idx hj]

lemma bidx_HW1 {H W : Nat} (i j c : Nat) (hi : i < H) (hj : j < W) :
    bidx [H, W, 1] [i, j, c] = [i, j, 0] := by
  simp [bidx, if_one_idx hi, if_one_idx hj]

lemma bget_HW3 (A : NDArr) {H W : Nat} (i j c : Nat) (hA : A.shape = [H, W, 3])
    (hi : i < H) (hj : j < W) : A.bget [i, j, c] = A.val [i, j, c] := by
  rw [NDArr.bget, hA]
  simp [bidx_HW3 i j c hi hj]

lemma bget_HW1 (A : NDArr) {H W : Nat} (i j c : Nat) (hA : A.shape = [H, W, 1])
    (hi : i < H) (hj : j < W) : A.bget [i, j, c] = A.val [i, j, 0] := by
  rw [NDArr.bget, hA]
  simp [bidx_HW1 i j c hi hj]

lemma ndZip_HW3_HW1 (f : ℚ → ℚ → ℚ) (A B : NDArr) (H W : Nat)
    (hA : A.shape = [H, W, 3]) (hB : B.shape = [H, W, 1]) :
    ndZip f A B =
      some ⟨[H, W, 3], fun ix => f (A.bget ix) (B.bget ix)⟩ := by
  rw [ndZip, hA, hB, broadcastShape_HW3_HW1, Option.map_some']

lemma ndZip_HW1_HW3 (f : ℚ → ℚ → ℚ) (A B : NDArr) (H W : Nat)
    (hA : A.shape = [H, W, 1]) (hB : B.shape = [H, W, 3]) :
    ndZip f A B =
      some ⟨[H, W, 3], fun ix => f (A.bget ix) (B.bget ix)⟩ := by
  rw [ndZip, hA, hB, broadcastShape_HW1_HW3, Option.map_some']

lemma ndZip_HW3_HW3 (f : ℚ → ℚ → ℚ) (A B : NDArr) (H W : Nat)
    (hA : A.shape = [H, W, 3]) (hB : B.shape = [H, W, 3]) :
    ndZip f A B =
      some ⟨[H, W, 3], fun ix => f (A.bget ix) (B.bget ix)⟩ := by
  rw [ndZip, hA, hB, broadcastShape_HW3_HW3, Option.map_some']

/-- The complete behavior of `MergeFgAndBg.__call__` on a well-shaped record:
the result updates only the key `merged`, whose array has shape `H×W×3` and
holds `fg * (alpha/255) + (1 - alpha/255) * bg` at every in-range index. -/
lemma mergeCall_spec (r : String → Option NDArr) (A F B : NDArr) (H W : Nat)
    (hA : r "alpha" = some A) (hAs : A.shape = [H, W])
    (hF : r "fg" = some F) (hFs : F.shape = [H, W, 3])
    (hB : r "bg" = some B) (hBs : B.shape = [H, W, 3]) :
    ∃ M : NDArr,
      MergeFgAndBg.call r =
        some (fun k => if k = "merged" then some M else r k) ∧
      M.shape = [H, W, 3] ∧
      ∀ i j c : Nat, i < H → j < W →
        M.val [i, j, c] =
          F.val [i, j, c] * (A.val [i, j] / 255) +
          (1 - A.val [i, j] / 255) * B.val [i, j, c] := by
  have hAe : (A.expandLast.smap (fun v => v / 255)).shape = [H, W, 1] := by
    simp [NDArr.expandLast, NDArr.smap, hAs]
  have hAe2 : ((A.expandLast.smap (fun v => v / 255)).smap
      (fun v => 1 - v)).shape = [H, W, 1] := by
    simp [NDArr.expandLast, NDArr.smap, hAs]
  have h1 := ndZip_HW3_HW1 (· * ·) F (A.expandLast.smap (fun v => v / 255))
    H W hFs hAe
  have h2 := ndZip_HW1_HW3 (· * ·)
    ((A.expandLast.smap (fun v => v / 255)).smap (fun v => 1 - v)) B
    H W hAe2 hBs
  have h3 := ndZip_HW3_HW3 (· + ·)
    (⟨[H, W, 3], fun ix =>
      F.bget ix * (A.expandLast.smap (fun v => v / 255)).bget ix⟩ : NDArr)
    (⟨[H, W, 3], fun ix =>
      ((A.expandLast.smap (fun v => v / 255)).smap (fun v => 1 - v)).bget ix *
        B.bget ix⟩ : NDArr)
    H W rfl rfl
  rw [MergeFgAndBg.call, hA, hF, hB]
  simp only [h1, h2, h3]
  refine ⟨_, rfl, rfl, ?_⟩
  intro i j c hi hj
  dsimp only
  simp [NDArr.bget, NDArr.smap, NDArr.expandLast, hFs, hBs, hAs,
    bidx_HW3 i j c hi hj, bidx_HW1 i j c hi hj]

/-! ### Claim C1 -/

/-- C1: for every sample record containing `alpha` (byte-scaled H×W), `fg`
and `bg` (H×W×3), `MergeFgAndBg.__call__` writes under `merged` the array
`fg * a + (1 - a) * bg` where `a = alpha/255` is broadcast across the three
channels, and removes (or alters) none of the other keys. -/
theorem mergeFgAndBg_formula_and_preserves_keys
    (r : String → Option NDArr) (A F B : NDArr) (H W : Nat)
    (hA : r "alpha" = some A) (hAs : A.shape = [H, W])
    (hF : r "fg" = some F) (hFs : F.shape = [H, W, 3])
    (hB : r "bg" = some B) (hBs : B.shape = [H, W, 3]) :
    (∀ k, k ≠ "merged" → getKey2 (MergeFgAndBg.call r) k = r k) ∧
    ∃ M : NDArr, getKey2 (MergeFgAndBg.call r) "merged" = some M ∧
      M.shape = [H, W, 3] ∧
      ∀ i j c : Nat, i < H → j < W →
        M.val [i, j, c] =
          F.val [i, j, c] * (A.val [i, j] / 255) +
          (1 - A.val [i, j] / 255) * B.val [i, j, c] := by
  obtain ⟨M, hcall, hsh, hval⟩ := mergeCall_spec r A F B H W hA hAs hF hFs hB hBs
  constructor
  · intro k hk
    rw [getKey2, hcall]
    simp [hk]
  · refine ⟨M, ?_, hsh, hval⟩
    rw [getKey2, hcall]
    simp

/-- Witness for C1 at a concrete 1×1 record: the `bg` key is untouched. -/
theorem mergeFgAndBg_formula_and_preserves_keys_witness :
    getKey2 (MergeFgAndBg.call wMergeRec) "bg" = wMergeRec "bg" :=
  (mergeFgAndBg_formula_and_preserves_keys wMergeRec
    ⟨[1, 1], fun _ => 51⟩ ⟨[1, 1, 3], fun _ => 10⟩ ⟨[1, 1, 3], fun _ => 20⟩
    1 1 rfl rfl rfl rfl rfl rfl).1 "bg" (by decide)

/-! ### Claim C9 -/

/-- C9 (amended): for a record whose `alpha` has shape H×W (2-D) and whose
`fg` and `bg` have shape H×W×3, the broadcast in `MergeFgAndBg.__call__`
succeeds and a merged array is produced.  (The H×W×1 case of the original
claim fails; see the counterexample.) -/
theorem mergeFgAndBg_broadcast_hw
    (r : String → Option NDArr) (A F B : NDArr) (H W : Nat)
    (hA : r "alpha" = some A) (hAs : A.shape = [H, W])
    (hF : r "fg" = some F) (hFs : F.shape = [H, W, 3])
    (hB : r "bg" = some B) (hBs : B.shape = [H, W, 3]) :
    (getKey2 (MergeFgAndBg.call r) "merged").isSome := by
  obtain ⟨M, hcall, -, -⟩ := mergeCall_spec r A F B H W hA hAs hF hFs hB hBs
  rw [getKey2, hcall]
  simp

/-- Witness for C9 at a concrete 1×1 record. -/
theorem mergeFgAndBg_broadcast_hw_witness :
    (getKey2 (MergeFgAndBg.call wMergeRec) "merged").isSome :=
  mergeFgAndBg_broadcast_hw wMergeRec
    ⟨[1, 1], fun _ => 51⟩ ⟨[1, 1, 3], fun _ => 10⟩ ⟨[1, 1, 3], fun _ => 20⟩
    1 1 rfl rfl rfl rfl rfl rfl

/-- C9 counterexample: with `alpha` of shape 2×3×1 and `fg`, `bg` of shape
2×3×3, `MergeFgAndBg.__call__` raises a broadcast failure rather than
completing: `alpha[..., None]` has shape 2×3×1×1, which does not broadcast
against 2×3×3 (the aligned dimensions 2 and 3 disagree). -/
theorem mergeFgAndBg_hw1_broadcast_fails :
    MergeFgAndBg.call wMergeRecHW1 = none := by
  rfl

/-! ### Claim C2 -/

/-- C2: for every alpha input and any random draws, `GenerateTrimap.__call__`
builds the trimap by initializing every pixel to 128, setting 255 on the
pixels where the eroded alpha is ≥ 255 and then 0 on those where the dilated
alpha is ≤ 0 (the later write winning on overlap); consequently the output
trimap has the shape of alpha and contains only values in 0, 128, 255. -/
theorem generateTrimap_build_and_value_domain
    (cfg : GenerateTrimap.Cfg) (d : GenerateTrimap.Draws) (alpha : NImg) :
    (GenerateTrimap.call cfg d alpha).h = alpha.h ∧
    (GenerateTrimap.call cfg d alpha).w = alpha.w ∧
    ∀ i j : Nat,
      ((GenerateTrimap.dilated cfg d alpha).px i j ≤ 0 →
        (GenerateTrimap.call cfg d alpha).px i j = 0) ∧
      (0 < (GenerateTrimap.dilated cfg d alpha).px i j →
        255 ≤ (GenerateTrimap.eroded cfg d alpha).px i j →
        (GenerateTrimap.call cfg d alpha).px i j = 255) ∧
      (0 < (GenerateTrimap.dilated cfg d alpha).px i j →
        (GenerateTrimap.eroded cfg d alpha).px i j < 255 →
        (GenerateTrimap.call cfg d alpha).px i j = 128) ∧
      ((GenerateTrimap.call cfg d alpha).px i j = 0 ∨
        (GenerateTrimap.call cfg d alpha).px i j = 128 ∨
        (GenerateTrimap.call cfg d alpha).px i j = 255) := by
  refine ⟨rfl, rfl, ?_⟩
  intro i j
  simp only [GenerateTrimap.call, GenerateTrimap.buildTrimap]
  refine ⟨?_, ?_, ?_, ?_⟩ <;> · intros; split_ifs <;> omega

/-- Witness for C2 at a concrete 3×3 all-255 alpha with a size-3 kernel. -/
theorem generateTrimap_build_and_value_domain_witness :
    (GenerateTrimap.call wTriCfg wTriDraws wTriAlpha).px 1 1 = 255 := by
  have h :=
    (generateTrimap_build_and_value_domain wTriCfg wTriDraws wTriAlpha).2.2 1 1
  exact h.2.1 (by decide) (by decide)

/-! ### Claim C5 -/

/-- C5: `GenerateTrimap.__init__` precomputes exactly one elliptical
structuring element per integer size in the configured range with the upper
bound exclusive, and a single int `k` (for `kernel_size` or `iterations`)
denotes the fixed value `k`: the kernel list is exactly `[ellipse k]`, and
a draw from the iteration range `[k, k+1)` can only yield `k`. -/
theorem generateTrimap_init_kernels_and_iterations (k lo hi : Nat) :
    GenerateTrimap.initKernels (.int k) = [ellipseKernel k] ∧
    (GenerateTrimap.initKernels (.pair lo hi)).length = hi - lo ∧
    (∀ i : Nat, ∀ hi2 : i < (GenerateTrimap.initKernels (.pair lo hi)).length,
      (GenerateTrimap.initKernels (.pair lo hi)).get ⟨i, hi2⟩ =
        ellipseKernel (lo + i) ∧ (ellipseKernel (lo + i)).size = lo + i) ∧
    GenerateTrimap.initIterations (.int k) = (k, k + 1) ∧
    (∀ it : Nat, (GenerateTrimap.initIterations (.int k)).1 ≤ it →
      it < (GenerateTrimap.initIterations (.int k)).2 → it = k) := by
  refine ⟨?_, ?_, ?_, rfl, ?_⟩
  · have hs : k + 1 - k = 1 := by omega
    simp only [GenerateTrimap.initKernels, boundsOf, hs]
    rfl
  · simp [GenerateTrimap.initKernels, boundsOf]
  · intro i hi2
    refine ⟨?_, rfl⟩
    simp only [GenerateTrimap.initKernels, boundsOf] at hi2 ⊢
    simp [List.get_eq_getElem, List.getElem_range']
  · intro it h1 h2
    simp only [GenerateTrimap.initIterations, boundsOf] at h1 h2
    omega

/-- Witness for C5 at `kernel_size=3` and range `[1, 4)`. -/
theorem generateTrimap_init_kernels_and_iterations_witness :
    GenerateTrimap.initKernels (.int 3) = [ellipseKernel 3] ∧
    (GenerateTrimap.initKernels (.pair 1 4)).length = 3 ∧ (3 : Nat) = 3 := by
  have h := generateTrimap_init_kernels_and_iterations 3 1 4
  refine ⟨h.1, by simpa using h.2.1, h.2.2.2.2 3 (by decide) (by decide)⟩

/-! ### Claim C6 -/

/-- C6: with the kernels produced by `__init__` from sizes ≥ 1 (every such
elliptical element contains its anchor), the region where the eroded alpha
is ≥ 255 is inside the original 255 region, which is inside the dilated
alpha's positive region; hence no pixel satisfies both trimap overwrite
conditions, and the value 128 appears exactly on the pixels satisfying
neither. -/
theorem generateTrimap_erode_dilate_monotone
    (cfg : GenerateTrimap.Cfg) (d : GenerateTrimap.Draws) (ks : IntOrPair)
    (alpha : NImg)
    (hker : cfg.kernels = GenerateTrimap.initKernels ks)
    (hpos : 1 ≤ (boundsOf ks).1)
    (heidx : d.erodeIdx < cfg.kernels.length)
    (hdidx : (if cfg.symmetric then d.erodeIdx else d.dilateIdx) <
      cfg.kernels.length)
    (i j : Nat) (hi : i < alpha.h) (hj : j < alpha.w)
    (hb : alpha.px i j ≤ 255) :
    (255 ≤ (GenerateTrimap.eroded cfg d alpha).px i j →
      alpha.px i j = 255) ∧
    (alpha.px i j = 255 →
      0 < (GenerateTrimap.dilated cfg d alpha).px i j) ∧
    ¬(255 ≤ (GenerateTrimap.eroded cfg d alpha).px i j ∧
      (GenerateTrimap.dilated cfg d alpha).px i j ≤ 0) ∧
    ((GenerateTrimap.call cfg d alpha).px i j = 128 ↔
      ((GenerateTrimap.eroded cfg d alpha).px i j < 255 ∧
        0 < (GenerateTrimap.dilated cfg d alpha).px i j)) := by
  have hker_anchor : ∀ idx : Nat, idx < cfg.kernels.length →
      ((0 : Int), (0 : Int)) ∈ (cfg.kernels.getD idx ⟨0, []⟩).offsets := by
    intro idx hidx
    rw [hker] at hidx ⊢
    rw [List.getD_eq_getElem _ _ hidx]
    simp only [GenerateTrimap.initKernels, List.getElem_map,
      List.getElem_range']
    refine anchor_mem_ellipse ?_
    omega
  have he_le : (GenerateTrimap.eroded cfg d alpha).px i j ≤ alpha.px i j :=
    erodeN_px_le (hker_anchor _ heidx) _ _ hi hj
  have hd_ge : alpha.px i j ≤ (GenerateTrimap.dilated cfg d alpha).px i j :=
    dilateN_px_ge (hker_anchor _ hdidx) _ _ hi hj
  refine ⟨?_, ?_, ?_, ?_⟩
  · intro h
    omega
  · intro h
    omega
  · intro h
    omega
  · simp only [GenerateTrimap.call, GenerateTrimap.buildTrimap]
    split_ifs with h1 h2
    · simp only [false_iff]
      omega
    · omega
    · omega

/-- Witness for C6 at the size-3 symmetric configuration on a 3×3 opaque
alpha. -/
theorem generateTrimap_erode_dilate_monotone_witness :
    ¬(255 ≤ (GenerateTrimap.eroded wTriCfg wTriDraws wTriAlpha).px 0 0 ∧
      (GenerateTrimap.dilated wTriCfg wTriDraws wTriAlpha).px 0 0 ≤ 0) := by
  have h := generateTrimap_erode_dilate_monotone wTriCfg wTriDraws (.int 3)
    wTriAlpha rfl (by decide) (by decide) (by decide) 0 0 (by decide)
    (by decide) (by decide)
  exact h.2.2.1

/-! ### Lemmas about CompositeFg -/

lemma toByteQ_natCast (n : Nat) (hn : n ≤ 255) : toByteQ (n : ℚ) = (n : ℚ) := by
  rw [toByteQ, Int.floor_natCast, Int.toNat_natCast, Nat.mod_eq_of_lt (by omega)]

/-- Reduction of `CompositeFg.call` once the three required keys are
present and well-typed. -/
lemma compositeCall_spec (cfg : CompositeFg.Cfg) (fs : String → CImg × QImg)
    (coin : ℚ) (idx : Nat) (r : String → Option CVal)
    (fg : CImg) (alpha0 : QImg) (h w : Nat)
    (hfg : r "fg" = some (.imgC fg))
    (ha : r "alpha" = some (.imgA alpha0))
    (hs : r "img_shape" = some (.shape (h, w))) :
    CompositeFg.call cfg fs coin idx r =
      some (fun k =>
        if k = "fg" then
          some (.imgC (CompositeFg.compose cfg fs coin idx fg
            (alpha0.map (fun v => v / 255)) h w).1)
        else if k = "alpha" then
          some (.imgA (CompositeFg.compose cfg fs coin idx fg
            (alpha0.map (fun v => v / 255)) h w).2.toBytes)
        else if k = "img_shape" then
          some (.shape ((CompositeFg.compose cfg fs coin idx fg
            (alpha0.map (fun v => v / 255)) h w).2.h,
            (CompositeFg.compose cfg fs coin idx fg
              (alpha0.map (fun v => v / 255)) h w).2.w))
        else r k) := by
  rw [CompositeFg.call, hfg, ha, hs]

/-- The skip branch of `CompositeFg.__call__` leaves the working pair
untouched. -/
lemma compose_skip (cfg : CompositeFg.Cfg) (fs : String → CImg × QImg)
    (coin : ℚ) (idx : Nat) (fg : CImg) (alpha : QImg) (h w : Nat)
    (hcoin : ¬coin < 1 / 2) :
    CompositeFg.compose cfg fs coin idx fg alpha h w = (fg, alpha) := by
  rw [CompositeFg.compose, if_neg hcoin]

/-- When the normalized alpha is uniformly 1 on its domain, the combined
alpha is uniformly 1 as well, `np.any(alpha_tmp < 1)` is false, and the
branch body leaves the working pair untouched whatever the coin. -/
lemma compose_opaque (cfg : CompositeFg.Cfg) (fs : String → CImg × QImg)
    (coin : ℚ) (idx : Nat) (fg : CImg) (alpha : QImg) (h w : Nat)
    (hone : ∀ i : Nat, i < alpha.h → ∀ j : Nat, j < alpha.w →
      alpha.px i j = 1) :
    CompositeFg.compose cfg fs coin idx fg alpha h w = (fg, alpha) := by
  rw [CompositeFg.compose]
  split_ifs with hc
  case neg => rfl
  dsimp only
  split_ifs with hany
  case neg => rfl
  exfalso
  have hfalse : (screenAlpha alpha
      (resizeQ ((fs (cfg.stem_list.getD idx "")).2.map
        (fun v => v / 255)) h w)).anyLt1 = false := by
    rw [QImg.anyLt1, List.any_eq_false]
    intro x hx
    rw [Bool.not_eq_true, List.any_eq_false]
    intro y hy
    have hx' : x < alpha.h := by
      simpa [screenAlpha] using List.mem_range.1 hx
    have hy' : y < alpha.w := by
      simpa [screenAlpha] using List.mem_range.1 hy
    simp [screenAlpha, hone x hx' y hy']
  rw [hfalse] at hany
  exact Bool.false_ne_true hany

/-! ### Claim C7 -/

/-- C7: for elementwise values of the two alpha mattes in [0, 1], the screen
composition `alpha_new = 1 - (1 - alpha) * (1 - alpha2)` computed by
`CompositeFg` satisfies `alpha ≤ alpha_new ≤ 1` and `alpha2 ≤ alpha_new ≤ 1`
elementwise. -/
theorem compositeFg_screen_alpha_bounds (a a2 : QImg) (i j : Nat)
    (h0 : 0 ≤ a.px i j) (h1 : a.px i j ≤ 1)
    (h0' : 0 ≤ a2.px i j) (h1' : a2.px i j ≤ 1) :
    a.px i j ≤ (screenAlpha a a2).px i j ∧
    a2.px i j ≤ (screenAlpha a a2).px i j ∧
    (screenAlpha a a2).px i j ≤ 1 := by
  simp only [screenAlpha]
  refine ⟨?_, ?_, ?_⟩ <;> nlinarith

/-- Witness for C7 at two half-opaque mattes. -/
theorem compositeFg_screen_alpha_bounds_witness :
    wAlphaHalf.px 0 0 ≤ (screenAlpha wAlphaHalf wAlphaHalf).px 0 0 ∧
    wAlphaHalf.px 0 0 ≤ (screenAlpha wAlphaHalf wAlphaHalf).px 0 0 ∧
    (screenAlpha wAlphaHalf wAlphaHalf).px 0 0 ≤ 1 :=
  compositeFg_screen_alpha_bounds wAlphaHalf wAlphaHalf 0 0
    (by norm_num [wAlphaHalf]) (by norm_num [wAlphaHalf])
    (by norm_num [wAlphaHalf]) (by norm_num [wAlphaHalf])

/-! ### Claim C3 -/

/-- C3 counterexample: a record whose stored `img_shape` (5, 7) differs from
its alpha's 1×1 array shape is mutated by the skip branch (`coin = 1/2`, so
the composition is not applied): `img_shape` is overwritten with (1, 1). -/
theorem compositeFg_skip_mutates_img_shape :
    getKey2 (CompositeFg.call wCompCfg wCompFs (1 / 2) 0 wRecBadShape)
      "img_shape" = some (.shape (1, 1)) ∧
    wRecBadShape "img_shape" = some (.shape (5, 7)) := by
  constructor
  · rw [getKey2, compositeCall_spec wCompCfg wCompFs (1 / 2) 0 wRecBadShape
        wCompFg ⟨1, 1, fun _ _ => 0⟩ 5 7 rfl rfl rfl,
      compose_skip _ _ _ _ _ _ _ _ (by norm_num), Option.some_bind]
    rfl
  · rfl

/-- C3 (amended): whenever `CompositeFg.__call__` takes the skip branch, the
record comes back with every key equal to what it held before — provided
the alpha array is integer byte-valued (so the unconditional
normalize/rescale round trip restores it) and the stored `img_shape` already
equals the alpha's array shape (it is unconditionally overwritten with the
latter).  Otherwise `alpha` or `img_shape` can change even on the skip
branch. -/
theorem compositeFg_skip_writeback (cfg : CompositeFg.Cfg)
    (fs : String → CImg × QImg) (coin : ℚ) (idx : Nat)
    (r : String → Option CVal) (fg : CImg) (alpha0 : QImg)
    (hfg : r "fg" = some (.imgC fg))
    (ha : r "alpha" = some (.imgA alpha0))
    (hs : r "img_shape" = some (.shape (alpha0.h, alpha0.w)))
    (hcoin : ¬coin < 1 / 2)
    (hbyte : ∀ i j : Nat, ∃ n : Nat, n ≤ 255 ∧ alpha0.px i j = (n : ℚ)) :
    ∀ k, getKey2 (CompositeFg.call cfg fs coin idx r) k = r k := by
  intro k
  rw [getKey2,
    compositeCall_spec cfg fs coin idx r fg alpha0 alpha0.h alpha0.w hfg ha hs,
    compose_skip cfg fs coin idx fg (alpha0.map (fun v => v / 255))
      alpha0.h alpha0.w hcoin, Option.some_bind]
  have hround : (alpha0.map (fun v => v / 255)).toBytes = alpha0 := by
    ext i j
    · rfl
    · rfl
    · rw [QImg.toBytes, QImg.map]
      obtain ⟨n, hn, hpx⟩ := hbyte i j
      simp only [hpx]
      rw [div_mul_cancel₀ _ (by norm_num : (255 : ℚ) ≠ 0),
        toByteQ_natCast n hn]
  by_cases hk1 : k = "fg"
  · subst hk1
    simp [hfg]
  by_cases hk2 : k = "alpha"
  · subst hk2
    simp [hk1, ha, hround]
  by_cases hk3 : k = "img_shape"
  · subst hk3
    simp [hk1, hk2, hs, QImg.map]
  · simp [hk1, hk2, hk3]

/-- Witness for C3 (amended) on a well-formed opaque record: the untouched
foreign key `extra` and every other key survive the skip branch. -/
theorem compositeFg_skip_writeback_witness :
    getKey2 (CompositeFg.call wCompCfg wCompFs (1 / 2) 0 wRec255) "extra" =
      wRec255 "extra" :=
  compositeFg_skip_writeback wCompCfg wCompFs (1 / 2) 0 wRec255
    wCompFg wAlpha255 rfl rfl rfl (by norm_num)
    (fun i j => ⟨255, by norm_num, by norm_num [wAlpha255]⟩) "extra"

/-! ### Claim C4 -/

/-- C4: when the stored `alpha` is uniformly 255 before the call, the
normalized alpha is uniformly 1, the combined `alpha_new` would be
uniformly 1 in every branch, the apply-condition `np.any(alpha_tmp < 1)`
never triggers, and `CompositeFg.__call__` returns `fg` and `alpha`
numerically unchanged — for every coin, index and load oracle. -/
theorem compositeFg_opaque_alpha_noop (cfg : CompositeFg.Cfg)
    (fs : String → CImg × QImg) (coin : ℚ) (idx : Nat)
    (r : String → Option CVal) (fg : CImg) (alpha0 : QImg) (h w : Nat)
    (hfg : r "fg" = some (.imgC fg))
    (ha : r "alpha" = some (.imgA alpha0))
    (hs : r "img_shape" = some (.shape (h, w)))
    (h255 : ∀ i : Nat, i < alpha0.h → ∀ j : Nat, j < alpha0.w →
      alpha0.px i j = 255) :
    getKey2 (CompositeFg.call cfg fs coin idx r) "fg" = some (.imgC fg) ∧
    (∀ a : QImg, getKey2 (CompositeFg.call cfg fs coin idx r) "alpha" =
      some (.imgA a) → a.h = alpha0.h ∧ a.w = alpha0.w ∧
      ∀ i : Nat, i < alpha0.h → ∀ j : Nat, j < alpha0.w →
        a.px i j = alpha0.px i j) := by
  have hone : ∀ i : Nat, i < (alpha0.map (fun v => v / 255)).h →
      ∀ j : Nat, j < (alpha0.map (fun v => v / 255)).w →
      (alpha0.map (fun v => v / 255)).px i j = 1 := by
    intro i hi j hj
    simp only [QImg.map] at hi hj ⊢
    rw [h255 i hi j hj]
    norm_num
  rw [getKey2, compositeCall_spec cfg fs coin idx r fg alpha0 h w hfg ha hs,
    compose_opaque cfg fs coin idx fg (alpha0.map (fun v => v / 255))
      h w hone, Option.some_bind]
  constructor
  · rfl
  · intro a haeq
    simp only [getKey2, Option.some_bind] at haeq
    simp at haeq
    subst haeq
    refine ⟨rfl, rfl, ?_⟩
    intro i hi j hj
    simp only [QImg.toBytes, QImg.map]
    rw [h255 i hi j hj]
    have h1 : (255 : ℚ) / 255 * 255 = ((255 : Nat) : ℚ) := by norm_num
    rw [h1, toByteQ_natCast 255 (by omega)]
    norm_num

/-- Witness for C4 on a concrete fully opaque 1×1 record with the
composing branch selected (`coin = 0`). -/
theorem compositeFg_opaque_alpha_noop_witness :
    getKey2 (CompositeFg.call wCompCfg wCompFs 0 0 wRec255) "fg" =
      some (.imgC wCompFg) :=
  (compositeFg_opaque_alpha_noop wCompCfg wCompFs 0 0 wRec255 wCompFg
    wAlpha255 1 1 rfl rfl rfl
    (fun i hi j hj => by norm_num [wAlpha255])).1

/-! ### Claim C8 -/

/-- C8: a concrete evaluation of the composing branch.  With `alpha = 128`,
`fg = 10` and a loaded pair `(fg2 = 200, alpha2 = 0)` on a 1×1 record, the
blend uses the original normalized alpha:
`10·(128/255) + 200·(1 - 128/255) = 5336/51`.  That value — not its uint8
cast 104 — is written back under `fg`: the source line `fg.astype(np.uint8)`
discards its result, so the written foreground keeps the non-integral
float value. -/
theorem compositeFg_blend_written_uncast :
    fgPx (CompositeFg.call wCompCfg wCompFs 0 0 wRec128) 0 0 0 =
      some (5336 / 51 : ℚ) ∧
    toByteQ (5336 / 51 : ℚ) = 104 ∧ (5336 / 51 : ℚ) ≠ 104 := by
  have hany : (screenAlpha (wAlpha128.map (fun v => v / 255))
      (resizeQ (((wCompFs "a").2).map (fun v => v / 255)) 1 1)).anyLt1
      = true := by
    rw [QImg.anyLt1]
    simp only [screenAlpha, QImg.map, wAlpha128, resizeQ, wCompFs]
    rw [show List.range 1 = [0] from rfl]
    simp only [List.any_cons, List.any_nil, Bool.or_false]
    rw [decide_eq_true_eq]
    norm_num
  have hcomp : CompositeFg.compose wCompCfg wCompFs 0 0 wCompFg
      (wAlpha128.map (fun v => v / 255)) 1 1 =
      (blendFg wCompFg (resizeC (wCompFs "a").1 1 1)
        (wAlpha128.map (fun v => v / 255)),
       screenAlpha (wAlpha128.map (fun v => v / 255))
        (resizeQ (((wCompFs "a").2).map (fun v => v / 255)) 1 1)) := by
    rw [CompositeFg.compose, if_pos (by norm_num : (0 : ℚ) < 1 / 2)]
    dsimp only [wCompCfg]
    rw [show (["a"] : List String).getD 0 "" = "a" from rfl, if_pos hany]
  refine ⟨?_, ?_, ?_⟩
  · rw [fgPx, getKey2,
      compositeCall_spec wCompCfg wCompFs 0 0 wRec128 wCompFg wAlpha128 1 1
        rfl rfl rfl, Option.some_bind]
    simp only [reduceIte, hcomp, Option.some_bind]
    simp only [blendFg, resizeC, QImg.map, wCompFg, wCompFs, wAlpha128]
    norm_num
  · have hf : ⌊(5336 / 51 : ℚ)⌋ = 104 := by
      rw [Int.floor_eq_iff]
      constructor <;> norm_num
    rw [toByteQ, hf, show Int.toNat 104 = 104 from rfl,
      show (104 % 256 : Nat) = 104 from rfl]
    norm_num
  · norm_num

/-! ### Claim C10 -/

/-- C10: on every call (with the three required keys present), whatever
branch the coin selects, `CompositeFg.__call__` overwrites `alpha` with the
final normalized alpha multiplied by 255 and cast to uint8 — so every
stored alpha pixel is a natural number in [0, 255] — and overwrites
`img_shape` with the shape of that alpha array. -/
theorem compositeFg_always_writes_alpha_img_shape (cfg : CompositeFg.Cfg)
    (fs : String → CImg × QImg) (coin : ℚ) (idx : Nat)
    (r : String → Option CVal) (fg : CImg) (alpha0 : QImg) (h w : Nat)
    (hfg : r "fg" = some (.imgC fg))
    (ha : r "alpha" = some (.imgA alpha0))
    (hs : r "img_shape" = some (.shape (h, w))) :
    getKey2 (CompositeFg.call cfg fs coin idx r) "alpha" =
      some (.imgA (CompositeFg.compose cfg fs coin idx fg
        (alpha0.map (fun v => v / 255)) h w).2.toBytes) ∧
    getKey2 (CompositeFg.call cfg fs coin idx r) "img_shape" =
      some (.shape ((CompositeFg.compose cfg fs coin idx fg
        (alpha0.map (fun v => v / 255)) h w).2.h,
        (CompositeFg.compose cfg fs coin idx fg
          (alpha0.map (fun v => v / 255)) h w).2.w)) ∧
    (∀ q : ℚ, ∀ i j : Nat,
      alphaPx (CompositeFg.call cfg fs coin idx r) i j = some q →
      ∃ n : Nat, n ≤ 255 ∧ q = (n : ℚ)) := by
  have hcall := compositeCall_spec cfg fs coin idx r fg alpha0 h w hfg ha hs
  refine ⟨?_, ?_, ?_⟩
  · rw [getKey2, hcall, Option.some_bind]
    rfl
  · rw [getKey2, hcall, Option.some_bind]
    rfl
  · intro q i j hq
    rw [alphaPx, getKey2, hcall, Option.some_bind] at hq
    simp at hq
    refine ⟨⌊(CompositeFg.compose cfg fs coin idx fg
      (alpha0.map (fun v => v / 255)) h w).2.px i j * 255⌋.toNat % 256,
      ?_, ?_⟩
    · have := Nat.mod_lt (⌊(CompositeFg.compose cfg fs coin idx fg
        (alpha0.map (fun v => v / 255)) h w).2.px i j * 255⌋.toNat)
        (show 0 < 256 by omega)
      omega
    · rw [← hq]
      rfl

/-- Witness for C10 on a concrete half-opaque record at the skip branch. -/
theorem compositeFg_always_writes_alpha_img_shape_witness :
    getKey2 (CompositeFg.call wCompCfg wCompFs (1 / 2) 0 wRec128)
      "img_shape" =
      some (.shape ((CompositeFg.compose wCompCfg wCompFs (1 / 2) 0 wCompFg
        (wAlpha128.map (fun v => v / 255)) 1 1).2.h,
        (CompositeFg.compose wCompCfg wCompFs (1 / 2) 0 wCompFg
          (wAlpha128.map (fun v => v / 255)) 1 1).2.w)) :=
  (compositeFg_always_writes_alpha_img_shape wCompCfg wCompFs (1 / 2) 0
    wRec128 wCompFg wAlpha128 1 1 rfl rfl rfl).2.1
